import Mathlib

/-!
Shallow embedding of the Sankey-diagram rendering scripts of this repository
(src/sankey-diagram.js, both scripts in it, and the themed variant
src/unnamed/part_000).  JavaScript numbers are modelled as rationals; the
JS Set / Map / Array.prototype.find semantics used by the scripts are
modelled by explicit list recursion, keeping insertion order.
-/

namespace VisualAutonomy

/-- One flow record of flow_data.json: an edge of the diagram.
Only the fields the scripts read are modelled. -/
structure Record where
  source : String
  target : String
  value : Rat
  source_funding : Rat
  target_funding : Rat
deriving DecidableEq, Repr

/-- A derived node object with its funding totals
(sankey-diagram.js lines 27-31). -/
structure Node where
  name : String
  fundingIn : Rat
  fundingOut : Rat
deriving DecidableEq, Repr

/-- JS Set.add in insertion order: append the name when it is not yet present
(sankey-diagram.js lines 20-24). -/
def insertName (acc : List String) (nm : String) : List String :=
  if nm ∈ acc then acc else acc ++ [nm]

/-- The contribution of one record to the node-name set: add d.source, then
d.target. -/
def collectStep (acc : List String) (d : Record) : List String :=
  insertName (insertName acc d.source) d.target

/-- All unique node names, in first-occurrence order
(sankey-diagram.js lines 20-24). -/
def nodeNames (data : List Record) : List String :=
  data.foldl collectStep []

/-- The node array before the funding pass: one node per unique name, with
both totals zero (sankey-diagram.js lines 27-31). -/
def initNodes (data : List Record) : List Node :=
  (nodeNames data).map (fun nm => { name := nm, fundingIn := 0, fundingOut := 0 })

/-- nodes.find(n => n.name === nm) followed by in-place mutation of the found
object: the first node named nm is replaced by f of it.  When no node matches
the list is unchanged: the themed variant guards that case with
if (sourceNode) / if (targetNode); in sankey-diagram.js the case is
unreachable (established below for C4). -/
def updateFirst (f : Node → Node) (nm : String) : List Node → List Node
  | [] => []
  | n :: rest => if n.name = nm then f n :: rest else n :: updateFirst f nm rest

/-- One step of the funding pass (sankey-diagram.js lines 34-39):
sourceNode.fundingOut += d.value; targetNode.fundingIn += d.value. -/
def aggStep (ns : List Node) (d : Record) : List Node :=
  updateFirst (fun n => { n with fundingIn := n.fundingIn + d.value }) d.target
    (updateFirst (fun n => { n with fundingOut := n.fundingOut + d.value }) d.source ns)

/-- The node array after the funding pass over all records
(sankey-diagram.js lines 27-39). -/
def aggregate (data : List Record) : List Node :=
  data.foldl aggStep (initNodes data)

/-- Sum of the value field over a record list. -/
def sumValues (l : List Record) : Rat :=
  (l.map Record.value).sum

/-- nodes.find(n => n.name === nm), without the mutation. -/
def getNode (ns : List Node) (nm : String) : Option Node :=
  ns.find? (fun n => n.name == nm)

/- ### Lemmas about the node-name set -/

lemma mem_insertName {acc : List String} {x nm : String} :
    nm ∈ insertName acc x ↔ nm ∈ acc ∨ nm = x := by
  unfold insertName
  split
  · rename_i h
    constructor
    · exact Or.inl
    · rintro (h1 | rfl)
      · exact h1
      · exact h
  · simp [List.mem_append]

lemma nodup_insertName {acc : List String} {x : String} (h : acc.Nodup) :
    (insertName acc x).Nodup := by
  unfold insertName
  split
  · exact h
  · rename_i hx
    simp [List.nodup_append, h, hx]

lemma mem_foldl_collect (l : List Record) :
    ∀ (acc : List String) (nm : String),
      nm ∈ l.foldl collectStep acc ↔
        nm ∈ acc ∨ ∃ d ∈ l, nm = d.source ∨ nm = d.target := by
  induction l with
  | nil => simp
  | cons d l ih =>
    intro acc nm
    rw [List.foldl_cons, ih]
    simp only [collectStep, mem_insertName, List.mem_cons]
    constructor
    · rintro (((h | h) | h) | ⟨e, he, h⟩)
      · exact Or.inl h
      · exact Or.inr ⟨d, Or.inl rfl, Or.inl h⟩
      · exact Or.inr ⟨d, Or.inl rfl, Or.inr h⟩
      · exact Or.inr ⟨e, Or.inr he, h⟩
    · rintro (h | ⟨e, he | he, h⟩)
      · exact Or.inl (Or.inl (Or.inl h))
      · subst he
        rcases h with h | h
        · exact Or.inl (Or.inl (Or.inr h))
        · exact Or.inl (Or.inr h)
      · exact Or.inr ⟨e, he, h⟩

lemma nodup_foldl_collect (l : List Record) :
    ∀ (acc : List String), acc.Nodup → (l.foldl collectStep acc).Nodup := by
  induction l with
  | nil => exact fun acc h => h
  | cons d l ih =>
    intro acc h
    exact ih _ (nodup_insertName (nodup_insertName h))

/-- Membership in the derived name set: exactly the names occurring as the source or target of some
record. -/
lemma mem_nodeNames {data : List Record} {nm : String} :
    nm ∈ nodeNames data ↔ ∃ d ∈ data, nm = d.source ∨ nm = d.target := by
  simpa [nodeNames] using mem_foldl_collect data [] nm

/-- The derived name list has no duplicates. -/
lemma nodeNames_nodup (data : List Record) : (nodeNames data).Nodup :=
  nodup_foldl_collect data [] List.nodup_nil

lemma initNodes_names (data : List Record) :
    (initNodes data).map Node.name = nodeNames data := by
  simp only [initNodes, List.map_map]
  exact List.map_id _

/- ### Lemmas about updateFirst and the funding pass -/

lemma updateFirst_map_name (f : Node → Node) {nm : String}
    (hf : ∀ n, (f n).name = n.name) :
    ∀ ns : List Node, (updateFirst f nm ns).map Node.name = ns.map Node.name := by
  intro ns
  induction ns with
  | nil => rfl
  | cons n rest ih =>
    by_cases h : n.name = nm
    · simp [updateFirst, h, hf]
    · simp [updateFirst, h, ih]

lemma getNode_updateFirst_self {f : Node → Node} {nm : String}
    (hf : ∀ n, (f n).name = n.name) :
    ∀ ns : List Node, getNode (updateFirst f nm ns) nm = (getNode ns nm).map f := by
  intro ns
  induction ns with
  | nil => rfl
  | cons n rest ih =>
    by_cases h : n.name = nm
    · simp [updateFirst, getNode, h, hf]
    · have hb : (n.name == nm) = false := by simp [h]
      simp only [updateFirst, if_neg h]
      simp only [getNode, List.find?_cons, hb] at ih ⊢
      exact ih

lemma getNode_updateFirst_ne {f : Node → Node} {nm nm' : String}
    (hf : ∀ n, (f n).name = n.name) (hne : nm ≠ nm') :
    ∀ ns : List Node, getNode (updateFirst f nm' ns) nm = getNode ns nm := by
  intro ns
  induction ns with
  | nil => rfl
  | cons n rest ih =>
    by_cases h : n.name = nm'
    · have hnnm : n.name ≠ nm := fun e => hne (e.symm.trans h)
      have hfn : (f n).name ≠ nm := by rw [hf n, h]; exact fun e => hne e.symm
      have hb1 : ((f n).name == nm) = false := by simp [hfn]
      have hb2 : (n.name == nm) = false := by simp [hnnm]
      have hb3 : (nm' == nm) = false := beq_eq_false_iff_ne.mpr (Ne.symm hne)
      simp [updateFirst, getNode, List.find?_cons, h, hb1, hb2, hb3, ih]
    · by_cases h2 : n.name = nm
      · simp [updateFirst, getNode, List.find?_cons, h, h2, hne]
      · have hb2 : (n.name == nm) = false := by simp [h2]
        simp only [updateFirst, if_neg h]
        simp only [getNode, List.find?_cons, hb2] at ih ⊢
        exact ih

/-- The name of the node returned by getNode. -/
lemma getNode_name {ns : List Node} {nm : String} {n : Node}
    (h : getNode ns nm = some n) : n.name = nm := by
  have := List.find?_some h
  simpa using this

/-- Effect of the whole funding pass on the node found under a fixed name:
its fundingIn grows by the value-sum of the records targeting the name, its
fundingOut by the value-sum of the records sourcing it. -/
lemma getNode_foldl_aggStep (l : List Record) :
    ∀ (ns : List Node) (nm : String) (n : Node), getNode ns nm = some n →
      getNode (l.foldl aggStep ns) nm =
        some { name := n.name,
               fundingIn := n.fundingIn + sumValues (l.filter fun d => d.target == nm),
               fundingOut := n.fundingOut + sumValues (l.filter fun d => d.source == nm) } := by
  induction l with
  | nil =>
    intro ns nm n h
    simpa [sumValues] using h
  | cons d l ih =>
    intro ns nm n h
    rw [List.foldl_cons]
    have hfOut : ∀ m : Node, ({ m with fundingOut := m.fundingOut + d.value } : Node).name = m.name :=
      fun m => rfl
    have hfIn : ∀ m : Node, ({ m with fundingIn := m.fundingIn + d.value } : Node).name = m.name :=
      fun m => rfl
    by_cases hs : d.source = nm <;> by_cases ht : d.target = nm
    · have h1 : getNode (aggStep ns d) nm =
          some { n with fundingIn := n.fundingIn + d.value,
                        fundingOut := n.fundingOut + d.value } := by
        unfold aggStep
        rw [ht, getNode_updateFirst_self hfIn, hs, getNode_updateFirst_self hfOut, h]
        rfl
      rw [ih _ _ _ h1]
      simp only [List.filter_cons, ht, hs, beq_self_eq_true, if_pos]
      simp [sumValues]
      constructor <;> ring
    · have h1 : getNode (aggStep ns d) nm =
          some { n with fundingOut := n.fundingOut + d.value } := by
        unfold aggStep
        rw [getNode_updateFirst_ne hfIn (fun e => ht e.symm), hs,
          getNode_updateFirst_self hfOut, h]
        rfl
      rw [ih _ _ _ h1]
      have ht' : (d.target == nm) = false := by simp [ht]
      simp only [List.filter_cons, ht', hs, beq_self_eq_true, if_pos, Bool.false_eq_true,
        if_neg, not_false_iff]
      simp [sumValues]
      ring
    · have h1 : getNode (aggStep ns d) nm =
          some { n with fundingIn := n.fundingIn + d.value } := by
        unfold aggStep
        rw [ht, getNode_updateFirst_self hfIn,
          getNode_updateFirst_ne hfOut (fun e => hs e.symm), h]
        rfl
      rw [ih _ _ _ h1]
      have hs' : (d.source == nm) = false := by simp [hs]
      simp only [List.filter_cons, ht, hs', beq_self_eq_true, if_pos, Bool.false_eq_true,
        if_neg, not_false_iff]
      simp [sumValues]
      ring
    · have h1 : getNode (aggStep ns d) nm = some n := by
        unfold aggStep
        rw [getNode_updateFirst_ne hfIn (fun e => ht e.symm),
          getNode_updateFirst_ne hfOut (fun e => hs e.symm), h]
      rw [ih _ _ _ h1]
      have ht' : (d.target == nm) = false := by simp [ht]
      have hs' : (d.source == nm) = false := by simp [hs]
      simp only [List.filter_cons, ht', hs', Bool.false_eq_true, if_neg, not_false_iff]

lemma aggStep_map_name (ns : List Node) (d : Record) :
    (aggStep ns d).map Node.name = ns.map Node.name := by
  unfold aggStep
  rw [updateFirst_map_name (fun n => { n with fundingIn := n.fundingIn + d.value })
      (fun n => rfl),
    updateFirst_map_name (fun n => { n with fundingOut := n.fundingOut + d.value })
      (fun n => rfl)]

lemma foldl_aggStep_map_name (l : List Record) :
    ∀ ns : List Node, (l.foldl aggStep ns).map Node.name = ns.map Node.name := by
  induction l with
  | nil => exact fun ns => rfl
  | cons d l ih =>
    intro ns
    rw [List.foldl_cons, ih, aggStep_map_name]

/-- The funding pass neither adds nor removes nodes, nor renames any. -/
lemma aggregate_names (data : List Record) :
    (aggregate data).map Node.name = nodeNames data := by
  rw [aggregate, foldl_aggStep_map_name, initNodes_names]

/-- In a node list with pairwise-distinct names, find by name returns the
member itself. -/
lemma getNode_of_mem_nodup :
    ∀ {ns : List Node}, (ns.map Node.name).Nodup →
      ∀ {n : Node}, n ∈ ns → getNode ns n.name = some n := by
  intro ns
  induction ns with
  | nil => intro _ n hn; cases hn
  | cons m rest ih =>
    intro hnd n hn
    have hnd' := hnd
    rw [List.map_cons, List.nodup_cons] at hnd'
    rcases List.mem_cons.mp hn with rfl | hn'
    · simp [getNode, List.find?_cons]
    · by_cases h : m.name = n.name
      · exact absurd (h ▸ List.mem_map_of_mem Node.name hn') hnd'.1
      · have hb : (m.name == n.name) = false := beq_eq_false_iff_ne.mpr h
        simp only [getNode, List.find?_cons, hb]
        exact ih hnd'.2 hn'

lemma find?_map_mk (names : List String) (nm : String) (h : nm ∈ names) :
    (names.map fun s => ({ name := s, fundingIn := 0, fundingOut := 0 } : Node)).find?
        (fun n => n.name == nm) = some { name := nm, fundingIn := 0, fundingOut := 0 } := by
  induction names with
  | nil => cases h
  | cons s rest ih =>
    rcases List.mem_cons.mp h with rfl | h'
    · simp [List.find?_cons]
    · by_cases hs : s = nm
      · subst hs; simp [List.find?_cons]
      · have hb : (s == nm) = false := beq_eq_false_iff_ne.mpr hs
        simp only [List.map_cons, List.find?_cons, hb]
        exact ih h'

lemma getNode_initNodes {data : List Record} {nm : String} (h : nm ∈ nodeNames data) :
    getNode (initNodes data) nm = some { name := nm, fundingIn := 0, fundingOut := 0 } :=
  find?_map_mk (nodeNames data) nm h

/-- The aggregated node found under any name of the diagram carries exactly
the two filtered value-sums. -/
lemma getNode_aggregate {data : List Record} {nm : String} (h : nm ∈ nodeNames data) :
    getNode (aggregate data) nm =
      some { name := nm,
             fundingIn := sumValues (data.filter fun d => d.target == nm),
             fundingOut := sumValues (data.filter fun d => d.source == nm) } := by
  have := getNode_foldl_aggStep data (initNodes data) nm _ (getNode_initNodes h)
  rw [aggregate]
  simpa using this

/-- C1.  For every node produced by the aggregation pass, fundingIn is the sum
of value over the records whose target is the name of the node, and fundingOut
the sum of value over the records whose source is the name of the node
(sankey-diagram.js lines 33-39; src/unnamed/part_000 lines 78-87). -/
theorem funding_totals (data : List Record) (n : Node) (h : n ∈ aggregate data) :
    n.fundingIn = sumValues (data.filter fun d => d.target == n.name) ∧
    n.fundingOut = sumValues (data.filter fun d => d.source == n.name) := by
  have hnodup : ((aggregate data).map Node.name).Nodup := by
    rw [aggregate_names]; exact nodeNames_nodup data
  have h1 : getNode (aggregate data) n.name = some n := getNode_of_mem_nodup hnodup h
  have hmem : n.name ∈ nodeNames data := by
    rw [← aggregate_names]; exact List.mem_map_of_mem Node.name h
  have h2 := getNode_aggregate hmem
  rw [h1] at h2
  have h3 := Option.some.inj h2
  constructor
  · exact congrArg Node.fundingIn h3
  · exact congrArg Node.fundingOut h3

/-- C1 witness: a concrete two-record diagram evaluated at the node "b". -/
theorem funding_totals_witness :
    ({ name := "b", fundingIn := 5, fundingOut := 2 } : Node) ∈
        aggregate [⟨"a", "b", 5, 0, 0⟩, ⟨"b", "c", 2, 0, 0⟩] ∧
    (({ name := "b", fundingIn := 5, fundingOut := 2 } : Node).fundingIn =
        sumValues ([⟨"a", "b", 5, 0, 0⟩, ⟨"b", "c", 2, 0, 0⟩].filter
          fun d => d.target == "b") ∧
     ({ name := "b", fundingIn := 5, fundingOut := 2 } : Node).fundingOut =
        sumValues ([⟨"a", "b", 5, 0, 0⟩, ⟨"b", "c", 2, 0, 0⟩].filter
          fun d => d.source == "b")) :=
  ⟨by simp [aggregate, initNodes, nodeNames, collectStep, insertName, aggStep, updateFirst],
   funding_totals [⟨"a", "b", 5, 0, 0⟩, ⟨"b", "c", 2, 0, 0⟩]
    { name := "b", fundingIn := 5, fundingOut := 2 }
    (by simp [aggregate, initNodes, nodeNames, collectStep, insertName, aggStep, updateFirst])⟩

/-- C3.  The derived node list has pairwise-distinct names, a node exists for
a name exactly when some record references it as source or target, and each
referenced name names exactly one node
(sankey-diagram.js lines 19-31; src/unnamed/part_000 lines 55-76). -/
theorem nodes_unique_per_name (data : List Record) :
    ((aggregate data).map Node.name).Nodup ∧
    (∀ nm : String,
      (∃ d ∈ data, nm = d.source ∨ nm = d.target) ↔ nm ∈ (aggregate data).map Node.name) ∧
    (∀ nm : String, (∃ d ∈ data, nm = d.source ∨ nm = d.target) →
      ((aggregate data).map Node.name).count nm = 1) := by
  have hnames := aggregate_names data
  have hnodup : ((aggregate data).map Node.name).Nodup := by
    rw [hnames]; exact nodeNames_nodup data
  refine ⟨hnodup, fun nm => ?_, fun nm h => ?_⟩
  · rw [hnames, mem_nodeNames]
  · have hmem : nm ∈ (aggregate data).map Node.name := by
      rw [hnames, mem_nodeNames]; exact h
    exact List.count_eq_one_of_mem hnodup hmem

/-- C3 witness: on a concrete input with a repeated name, the name list is
duplicate-free and the repeated name "b" counts exactly once. -/
theorem nodes_unique_per_name_witness :
    (∃ d ∈ [(⟨"a", "b", 5, 0, 0⟩ : Record), ⟨"b", "c", 2, 0, 0⟩], "b" = d.source ∨ "b" = d.target) ∧
    ((aggregate [⟨"a", "b", 5, 0, 0⟩, ⟨"b", "c", 2, 0, 0⟩]).map Node.name).count "b" = 1 :=
  ⟨by decide, (nodes_unique_per_name [⟨"a", "b", 5, 0, 0⟩, ⟨"b", "c", 2, 0, 0⟩]).2.2 "b" (by decide)⟩

/- ### Flow conservation -/

/-- Sum of fundingIn over a node list. -/
def totalIn (ns : List Node) : Rat :=
  (ns.map Node.fundingIn).sum

/-- Sum of fundingOut over a node list. -/
def totalOut (ns : List Node) : Rat :=
  (ns.map Node.fundingOut).sum

lemma totalIn_updateFirst_keep (f : Node → Node) {nm : String}
    (hf : ∀ n, (f n).fundingIn = n.fundingIn) :
    ∀ ns : List Node, totalIn (updateFirst f nm ns) = totalIn ns := by
  intro ns
  induction ns with
  | nil => rfl
  | cons n rest ih =>
    by_cases h : n.name = nm
    · simp [updateFirst, totalIn, h, hf]
    · simp only [updateFirst, if_neg h]
      simp only [totalIn, List.map_cons, List.sum_cons] at ih ⊢
      rw [ih]

lemma totalOut_updateFirst_keep (f : Node → Node) {nm : String}
    (hf : ∀ n, (f n).fundingOut = n.fundingOut) :
    ∀ ns : List Node, totalOut (updateFirst f nm ns) = totalOut ns := by
  intro ns
  induction ns with
  | nil => rfl
  | cons n rest ih =>
    by_cases h : n.name = nm
    · simp [updateFirst, totalOut, h, hf]
    · simp only [updateFirst, if_neg h]
      simp only [totalOut, List.map_cons, List.sum_cons] at ih ⊢
      rw [ih]

lemma totalIn_updateFirst_add {nm : String} (v : Rat) :
    ∀ ns : List Node, nm ∈ ns.map Node.name →
      totalIn (updateFirst (fun n => { n with fundingIn := n.fundingIn + v }) nm ns) =
        totalIn ns + v := by
  intro ns
  induction ns with
  | nil => intro h; cases h
  | cons n rest ih =>
    intro hmem
    by_cases h : n.name = nm
    · simp only [updateFirst, if_pos h, totalIn, List.map_cons, List.sum_cons]
      ring
    · have hmem' : nm ∈ rest.map Node.name := by
        rcases List.mem_cons.mp hmem with e | e
        · exact absurd e.symm h
        · exact e
      have hih := ih hmem'
      simp only [totalIn] at hih
      simp only [updateFirst, if_neg h, totalIn, List.map_cons, List.sum_cons, hih]
      ring

lemma totalOut_updateFirst_add {nm : String} (v : Rat) :
    ∀ ns : List Node, nm ∈ ns.map Node.name →
      totalOut (updateFirst (fun n => { n with fundingOut := n.fundingOut + v }) nm ns) =
        totalOut ns + v := by
  intro ns
  induction ns with
  | nil => intro h; cases h
  | cons n rest ih =>
    intro hmem
    by_cases h : n.name = nm
    · simp only [updateFirst, if_pos h, totalOut, List.map_cons, List.sum_cons]
      ring
    · have hmem' : nm ∈ rest.map Node.name := by
        rcases List.mem_cons.mp hmem with e | e
        · exact absurd e.symm h
        · exact e
      have hih := ih hmem'
      simp only [totalOut] at hih
      simp only [updateFirst, if_neg h, totalOut, List.map_cons, List.sum_cons, hih]
      ring

/-- One funding step adds the value of the record once to the node totals on each
side, provided both endpoint names are present. -/
lemma totalIn_aggStep {ns : List Node} {d : Record}
    (ht : d.target ∈ ns.map Node.name) :
    totalIn (aggStep ns d) = totalIn ns + d.value := by
  unfold aggStep
  have hnames : (updateFirst (fun n => { n with fundingOut := n.fundingOut + d.value })
      d.source ns).map Node.name = ns.map Node.name :=
    updateFirst_map_name (fun n => { n with fundingOut := n.fundingOut + d.value })
      (fun n => rfl) ns
  rw [totalIn_updateFirst_add d.value _ (hnames ▸ ht),
    totalIn_updateFirst_keep (fun n => { n with fundingOut := n.fundingOut + d.value })
      (fun n => rfl)]

lemma totalOut_aggStep {ns : List Node} {d : Record}
    (hs : d.source ∈ ns.map Node.name) :
    totalOut (aggStep ns d) = totalOut ns + d.value := by
  unfold aggStep
  rw [totalOut_updateFirst_keep (fun n => { n with fundingIn := n.fundingIn + d.value })
      (fun n => rfl),
    totalOut_updateFirst_add d.value _ hs]

lemma totals_foldl_aggStep (l : List Record) :
    ∀ ns : List Node,
      (∀ d ∈ l, d.source ∈ ns.map Node.name ∧ d.target ∈ ns.map Node.name) →
      totalIn (l.foldl aggStep ns) = totalIn ns + sumValues l ∧
      totalOut (l.foldl aggStep ns) = totalOut ns + sumValues l := by
  induction l with
  | nil => intro ns _; simp [sumValues]
  | cons d l ih =>
    intro ns hmem
    have hd := hmem d (List.mem_cons_self d l)
    have hrest : ∀ e ∈ l, e.source ∈ (aggStep ns d).map Node.name ∧
        e.target ∈ (aggStep ns d).map Node.name := by
      intro e he
      rw [aggStep_map_name]
      exact hmem e (List.mem_cons_of_mem d he)
    rw [List.foldl_cons]
    obtain ⟨hin, hout⟩ := ih (aggStep ns d) hrest
    rw [hin, hout, totalIn_aggStep hd.2, totalOut_aggStep hd.1]
    simp only [sumValues, List.map_cons, List.sum_cons]
    constructor <;> ring

lemma totalIn_initNodes (data : List Record) : totalIn (initNodes data) = 0 := by
  apply List.sum_eq_zero
  intro x hx
  simp only [initNodes, List.map_map, List.mem_map] at hx
  obtain ⟨nm, _, e⟩ := hx
  exact e.symm

lemma totalOut_initNodes (data : List Record) : totalOut (initNodes data) = 0 := by
  apply List.sum_eq_zero
  intro x hx
  simp only [initNodes, List.map_map, List.mem_map] at hx
  obtain ⟨nm, _, e⟩ := hx
  exact e.symm

/-- C8.  Flow conservation: after the funding pass the total fundingOut, the
total fundingIn, and the total value of all records coincide — the value of each
record is added exactly once on each side
(sankey-diagram.js lines 27-39; src/unnamed/part_000 lines 63-87). -/
theorem flow_conservation (data : List Record) :
    totalOut (aggregate data) = sumValues data ∧
    totalIn (aggregate data) = sumValues data := by
  have hmem : ∀ d ∈ data, d.source ∈ (initNodes data).map Node.name ∧
      d.target ∈ (initNodes data).map Node.name := by
    intro d hd
    rw [initNodes_names]
    exact ⟨mem_nodeNames.mpr ⟨d, hd, Or.inl rfl⟩, mem_nodeNames.mpr ⟨d, hd, Or.inr rfl⟩⟩
  obtain ⟨hin, hout⟩ := totals_foldl_aggStep data (initNodes data) hmem
  rw [aggregate, hout, hin, totalIn_initNodes, totalOut_initNodes]
  constructor <;> ring

/- ### The name-to-index map and the link list -/

/-- nodes.map((node, index) => [node.name, index]) with a running index
(sankey-diagram.js line 42). -/
def nodeMapPairs : Nat → List Node → List (String × Nat)
  | _, [] => []
  | i, n :: rest => (n.name, i) :: nodeMapPairs (i + 1) rest

/-- new Map(pairs).get(k): JS Map keeps the value of the LAST pair with a
given key (set overwrites), so lookup prefers later pairs; none when no pair
has the key - the undefined of nodeMap.get. -/
def jsMapGet (pairs : List (String × Nat)) (k : String) : Option Nat :=
  match pairs with
  | [] => none
  | p :: rest =>
    match jsMapGet rest k with
    | some v => some v
    | none => if p.1 == k then some p.2 else none

/-- nodeMap.get(nm) for the map built from the node array
(sankey-diagram.js lines 42-47). -/
def nodeMapGet (ns : List Node) (nm : String) : Option Nat :=
  jsMapGet (nodeMapPairs 0 ns) nm

/-- A derived link object (sankey-diagram.js lines 45-51).  The source and
target fields hold what nodeMap.get returns: an index when the name is
present, undefined (none) otherwise. -/
structure Link where
  source : Option Nat
  target : Option Nat
  value : Rat
  source_funding : Rat
  target_funding : Rat
deriving DecidableEq, Repr

/-- The link array derived from the records against a given node array. -/
def mkLinks (ns : List Node) (data : List Record) : List Link :=
  data.map (fun d =>
    { source := nodeMapGet ns d.source, target := nodeMapGet ns d.target,
      value := d.value, source_funding := d.source_funding,
      target_funding := d.target_funding })

/-- The link array of the script: records mapped against the aggregated node
array (sankey-diagram.js lines 41-51). -/
def links (data : List Record) : List Link :=
  mkLinks (aggregate data) data

lemma jsMapGet_nodeMapPairs_not_mem :
    ∀ (ns : List Node) (i : Nat) {nm : String}, nm ∉ ns.map Node.name →
      jsMapGet (nodeMapPairs i ns) nm = none := by
  intro ns
  induction ns with
  | nil => intro i nm _; rfl
  | cons n rest ih =>
    intro i nm h
    rw [List.map_cons, List.mem_cons] at h
    push_neg at h
    have hb : (n.name == nm) = false := beq_eq_false_iff_ne.mpr (fun e => h.1 e.symm)
    simp only [nodeMapPairs, jsMapGet, ih (i + 1) h.2, hb]
    rfl

lemma jsMapGet_nodeMapPairs_at :
    ∀ (ns : List Node), (ns.map Node.name).Nodup →
      ∀ (i j : Nat) (n : Node), ns[j]? = some n →
        jsMapGet (nodeMapPairs i ns) n.name = some (i + j) := by
  intro ns
  induction ns with
  | nil => intro _ i j n h; simp at h
  | cons m rest ih =>
    intro hnd i j n h
    have hnd' := hnd
    rw [List.map_cons, List.nodup_cons] at hnd'
    match j, h with
    | 0, h =>
      have hn : m = n := by simpa using h
      rw [← hn]
      have hrest : m.name ∉ rest.map Node.name := hnd'.1
      simp only [nodeMapPairs, jsMapGet, jsMapGet_nodeMapPairs_not_mem rest (i + 1) hrest,
        beq_self_eq_true]
      rfl
    | Nat.succ j, h =>
      have hj : rest[j]? = some n := by simpa using h
      have := ih hnd'.2 (i + 1) j n hj
      simp only [nodeMapPairs, jsMapGet, this]
      congr 1
      omega

/-- Under duplicate-free names, the map sends the name of the j-th node to j. -/
lemma nodeMapGet_at {ns : List Node} (hnd : (ns.map Node.name).Nodup)
    {j : Nat} {n : Node} (hj : ns[j]? = some n) :
    nodeMapGet ns n.name = some j := by
  simpa using jsMapGet_nodeMapPairs_at ns hnd 0 j n hj

/-- A successful lookup names the node stored at the returned index. -/
lemma nodeMapGet_some {ns : List Node} (hnd : (ns.map Node.name).Nodup)
    {nm : String} {j : Nat} (h : nodeMapGet ns nm = some j) :
    ∃ n, ns[j]? = some n ∧ n.name = nm := by
  by_cases hmem : nm ∈ ns.map Node.name
  · obtain ⟨n, hn, rfl⟩ := List.mem_map.mp hmem
    obtain ⟨j0, hj0⟩ := List.mem_iff_getElem?.mp hn
    have := nodeMapGet_at hnd hj0
    rw [h] at this
    exact ⟨n, (Option.some.inj this) ▸ hj0, rfl⟩
  · rw [nodeMapGet, jsMapGet_nodeMapPairs_not_mem ns 0 hmem] at h
    cases h

lemma nodeMapGet_isSome {ns : List Node} (hnd : (ns.map Node.name).Nodup)
    {nm : String} (hmem : nm ∈ ns.map Node.name) :
    (nodeMapGet ns nm).isSome := by
  obtain ⟨n, hn, rfl⟩ := List.mem_map.mp hmem
  obtain ⟨j, hj⟩ := List.mem_iff_getElem?.mp hn
  rw [nodeMapGet_at hnd hj]
  rfl

lemma getNode_isSome {ns : List Node} {nm : String}
    (hmem : nm ∈ ns.map Node.name) : (getNode ns nm).isSome := by
  obtain ⟨n, hn, rfl⟩ := List.mem_map.mp hmem
  rw [getNode, List.find?_isSome]
  exact ⟨n, hn, beq_self_eq_true n.name⟩

/-- C2.  The link list has the same length and order as the record array;
each link carries the indices of the nodes named by the source and
target of the record, and copies value, source_funding and target_funding
(sankey-diagram.js lines 41-51; src/unnamed/part_000 lines 89-105). -/
theorem links_indexed (data : List Record) (i : Nat) (d : Record)
    (h : data[i]? = some d) :
    (links data).length = data.length ∧
    ∃ j k nj nk,
      (links data)[i]? =
        some
          { source := some j, target := some k, value := d.value,
            source_funding := d.source_funding, target_funding := d.target_funding } ∧
      (aggregate data)[j]? = some nj ∧ nj.name = d.source ∧
      (aggregate data)[k]? = some nk ∧ nk.name = d.target := by
  have hnd : ((aggregate data).map Node.name).Nodup := by
    rw [aggregate_names]; exact nodeNames_nodup data
  have hd : d ∈ data := List.mem_iff_getElem?.mpr ⟨i, h⟩
  have hsrc : d.source ∈ (aggregate data).map Node.name := by
    rw [aggregate_names]; exact mem_nodeNames.mpr ⟨d, hd, Or.inl rfl⟩
  have htgt : d.target ∈ (aggregate data).map Node.name := by
    rw [aggregate_names]; exact mem_nodeNames.mpr ⟨d, hd, Or.inr rfl⟩
  obtain ⟨j, hj⟩ := Option.isSome_iff_exists.mp (nodeMapGet_isSome hnd hsrc)
  obtain ⟨k, hk⟩ := Option.isSome_iff_exists.mp (nodeMapGet_isSome hnd htgt)
  obtain ⟨nj, hnj, hnjname⟩ := nodeMapGet_some hnd hj
  obtain ⟨nk, hnk, hnkname⟩ := nodeMapGet_some hnd hk
  refine ⟨by simp [links, mkLinks], j, k, nj, nk, ?_, hnj, hnjname, hnk, hnkname⟩
  simp [links, mkLinks, List.getElem?_map, h, hj, hk]

/-- C2 witness: the two-record diagram, record index 1. -/
theorem links_indexed_witness :
    ([(⟨"a", "b", 5, 0, 0⟩ : Record), ⟨"b", "c", 2, 0, 0⟩][1]? =
      some ⟨"b", "c", 2, 0, 0⟩) ∧
    ((links [⟨"a", "b", 5, 0, 0⟩, ⟨"b", "c", 2, 0, 0⟩]).length =
      [(⟨"a", "b", 5, 0, 0⟩ : Record), ⟨"b", "c", 2, 0, 0⟩].length ∧
     ∃ j k nj nk,
      (links [⟨"a", "b", 5, 0, 0⟩, ⟨"b", "c", 2, 0, 0⟩])[1]? =
        some
          { source := some j, target := some k, value := (2 : Rat),
            source_funding := 0, target_funding := 0 } ∧
      (aggregate [⟨"a", "b", 5, 0, 0⟩, ⟨"b", "c", 2, 0, 0⟩])[j]? = some nj ∧
        nj.name = "b" ∧
      (aggregate [⟨"a", "b", 5, 0, 0⟩, ⟨"b", "c", 2, 0, 0⟩])[k]? = some nk ∧
        nk.name = "c") :=
  ⟨by decide,
   links_indexed [⟨"a", "b", 5, 0, 0⟩, ⟨"b", "c", 2, 0, 0⟩] 1 ⟨"b", "c", 2, 0, 0⟩
     (by decide)⟩

/-- C4.  Every name referenced by a record as source or target has a node:
both the nodes.find lookups of the funding pass and the nodeMap.get lookups
of the link pass succeed for every record, with no validation step
(sankey-diagram.js lines 19-47; src/unnamed/part_000 lines 55-97). -/
theorem lookups_total (data : List Record) (d : Record) (h : d ∈ data) :
    (getNode (initNodes data) d.source).isSome ∧
    (getNode (initNodes data) d.target).isSome ∧
    (getNode (aggregate data) d.source).isSome ∧
    (getNode (aggregate data) d.target).isSome ∧
    (nodeMapGet (aggregate data) d.source).isSome ∧
    (nodeMapGet (aggregate data) d.target).isSome := by
  have hnd : ((aggregate data).map Node.name).Nodup := by
    rw [aggregate_names]; exact nodeNames_nodup data
  have hs : d.source ∈ nodeNames data := mem_nodeNames.mpr ⟨d, h, Or.inl rfl⟩
  have ht : d.target ∈ nodeNames data := mem_nodeNames.mpr ⟨d, h, Or.inr rfl⟩
  have hsi : d.source ∈ (initNodes data).map Node.name := by rw [initNodes_names]; exact hs
  have hti : d.target ∈ (initNodes data).map Node.name := by rw [initNodes_names]; exact ht
  have hsa : d.source ∈ (aggregate data).map Node.name := by rw [aggregate_names]; exact hs
  have hta : d.target ∈ (aggregate data).map Node.name := by rw [aggregate_names]; exact ht
  exact ⟨getNode_isSome hsi, getNode_isSome hti, getNode_isSome hsa, getNode_isSome hta,
    nodeMapGet_isSome hnd hsa, nodeMapGet_isSome hnd hta⟩

/-- C4 witness: the lookups succeed for the first record of the two-record
diagram. -/
theorem lookups_total_witness :
    ((⟨"a", "b", 5, 0, 0⟩ : Record) ∈ [(⟨"a", "b", 5, 0, 0⟩ : Record), ⟨"b", "c", 2, 0, 0⟩]) ∧
    (nodeMapGet (aggregate [⟨"a", "b", 5, 0, 0⟩, ⟨"b", "c", 2, 0, 0⟩]) "a").isSome :=
  ⟨by decide,
   (lookups_total [⟨"a", "b", 5, 0, 0⟩, ⟨"b", "c", 2, 0, 0⟩] ⟨"a", "b", 5, 0, 0⟩
     (by decide)).2.2.2.2.1⟩

/- ### Top-level error handling -/

/-- The library-presence checks (sankey-diagram.js lines 3-4): a missing
library throws with the given message. -/
def libraryChecks (d3Present sankeyPresent : Bool) : Except String Unit :=
  if d3Present = false then Except.error "D3 library is not loaded"
  else if sankeyPresent = false then Except.error "D3 Sankey plugin is not loaded"
  else Except.ok ()

/-- The fetch promise chain (sankey-diagram.js lines 7 and 132-135): a
rejected fetch sets the error element to "Error loading data: " plus the
message; a fulfilled fetch renders and writes no error text. -/
def fetchHandler (fetch : Except String (List Record)) : Option String :=
  match fetch with
  | Except.error msg => some ("Error loading data: " ++ msg)
  | Except.ok _ => none

/-- The whole script (sankey-diagram.js lines 1-141): the try/catch turns a
thrown message into "Error: " plus the message; otherwise the fetch handlers
decide the error element text.  none means no error text is written. -/
def runScript (d3Present sankeyPresent : Bool)
    (fetch : Except String (List Record)) : Option String :=
  match libraryChecks d3Present sankeyPresent with
  | Except.error msg => some ("Error: " ++ msg)
  | Except.ok _ => fetchHandler fetch

/-- C5.  The only error branches: a missing d3 or d3.sankey is caught and
written as "Error: " plus the message, a rejected fetch as
"Error loading data: " plus the message, and no error text is written exactly
when both libraries are present and the fetch fulfills
(sankey-diagram.js lines 1-4 and 132-141). -/
theorem error_handling (d3 sk : Bool) (fetch : Except String (List Record)) :
    (runScript d3 sk fetch = none ↔
      d3 = true ∧ sk = true ∧ ∃ data, fetch = Except.ok data) ∧
    (d3 = false →
      runScript d3 sk fetch = some ("Error: " ++ "D3 library is not loaded")) ∧
    (d3 = true → sk = false →
      runScript d3 sk fetch = some ("Error: " ++ "D3 Sankey plugin is not loaded")) ∧
    (∀ msg, d3 = true → sk = true → fetch = Except.error msg →
      runScript d3 sk fetch = some ("Error loading data: " ++ msg)) ∧
    (∀ s, runScript d3 sk fetch = some s →
      (∃ msg, s = "Error: " ++ msg) ∨ (∃ msg, s = "Error loading data: " ++ msg)) := by
  cases d3 <;> cases sk <;> rcases fetch with msg | data <;>
    simp [runScript, libraryChecks, fetchHandler]
  all_goals first
    | exact Or.inl ⟨"D3 library is not loaded", rfl⟩
    | exact Or.inl ⟨"D3 Sankey plugin is not loaded", rfl⟩

/-- C5 witness: with d3 absent, the error element reads
"Error: D3 library is not loaded". -/
theorem error_handling_witness :
    runScript false true (Except.ok []) =
      some ("Error: " ++ "D3 library is not loaded") :=
  (error_handling false true (Except.ok [])).2.1 rfl

/- ### The drag handler -/

/-- A node as the layout leaves it: horizontal position and vertical extent. -/
structure GeomNode where
  x0 : Rat
  y0 : Rat
  y1 : Rat
deriving DecidableEq, Repr

/-- The two assignments of dragmove (sankey-diagram.js lines 65-66, likewise
lines 228-229 and src/unnamed/part_000 lines 342-343), in source order:
d.y0 = Math.max(0, Math.min(height - (d.y1 - d.y0), eventY));
d.y1 = d.y0 + (d.y1 - d.y0);
the second line reads the ALREADY UPDATED d.y0. -/
def dragmoveNode (height ev : Rat) (nd : GeomNode) : GeomNode :=
  let y0 := max 0 (min (height - (nd.y1 - nd.y0)) ev)
  let y1 := y0 + (nd.y1 - y0)
  { nd with y0 := y0, y1 := y1 }

/-- C9 counterexample.  At height 580, a node with y0 = 100, y1 = 150 dragged
to eventY = 0 ends with y1 - y0 = 150, not the old height 50: the second
assignment leaves y1 fixed instead of preserving the height. -/
theorem drag_height_counterexample :
    ¬ ((dragmoveNode 580 0 { x0 := 10, y0 := 100, y1 := 150 }).y1 -
        (dragmoveNode 580 0 { x0 := 10, y0 := 100, y1 := 150 }).y0 =
      (150 : Rat) - 100) := by
  norm_num [dragmoveNode]

/-- C9 (amended).  A drag event sets the y0 of the dragged node to
max(0, min(height - oldExtent, eventY)) - inside [0, height - oldExtent]
whenever the old extent is at most the chart height - and leaves y1
unchanged; the extent is preserved exactly when the clamped y0 equals the old
y0, and a node lying inside [0, height] before the drag still lies inside
after it. -/
theorem drag_clamp (height ev : Rat) (nd : GeomNode) :
    (dragmoveNode height ev nd).y1 = nd.y1 ∧
    (dragmoveNode height ev nd).y0 = max 0 (min (height - (nd.y1 - nd.y0)) ev) ∧
    0 ≤ (dragmoveNode height ev nd).y0 ∧
    (nd.y1 - nd.y0 ≤ height →
      (dragmoveNode height ev nd).y0 ≤ height - (nd.y1 - nd.y0)) ∧
    ((dragmoveNode height ev nd).y0 = nd.y0 →
      (dragmoveNode height ev nd).y1 - (dragmoveNode height ev nd).y0 =
        nd.y1 - nd.y0) ∧
    (0 ≤ nd.y0 → nd.y1 ≤ height →
      0 ≤ (dragmoveNode height ev nd).y0 ∧ (dragmoveNode height ev nd).y1 ≤ height) := by
  refine ⟨by simp [dragmoveNode], rfl, le_max_left 0 _, ?_, ?_, ?_⟩
  · intro h
    have h1 : min (height - (nd.y1 - nd.y0)) ev ≤ height - (nd.y1 - nd.y0) :=
      min_le_left _ _
    have h2 : (0 : Rat) ≤ height - (nd.y1 - nd.y0) := by linarith
    exact max_le h2 h1
  · intro h
    rw [show (dragmoveNode height ev nd).y1 = nd.y1 by simp [dragmoveNode], h]
  · intro h0 h1
    refine ⟨le_max_left 0 _, ?_⟩
    rw [show (dragmoveNode height ev nd).y1 = nd.y1 by simp [dragmoveNode]]
    exact h1

/-- C9 witness for the amended claim: height 580, node y0 = 0, y1 = 50,
eventY = 700; the clamp lands at 530 = 580 - 50 and y1 stays 50. -/
theorem drag_clamp_witness :
    ((50 : Rat) - 0 ≤ 580) ∧ (0 : Rat) ≤ 0 ∧ ((50 : Rat) ≤ 580) ∧
    (dragmoveNode 580 700 { x0 := 10, y0 := 0, y1 := 50 }).y0 ≤ 580 - ((50 : Rat) - 0) ∧
    (0 ≤ (dragmoveNode 580 700 { x0 := 10, y0 := 0, y1 := 50 }).y0 ∧
      (dragmoveNode 580 700 { x0 := 10, y0 := 0, y1 := 50 }).y1 ≤ 580) :=
  ⟨by norm_num, le_refl 0, by norm_num,
   (drag_clamp 580 700 { x0 := 10, y0 := 0, y1 := 50 }).2.2.2.1 (by norm_num),
   (drag_clamp 580 700 { x0 := 10, y0 := 0, y1 := 50 }).2.2.2.2.2 (le_refl 0) (by norm_num)⟩

/-- The graph with the dragged node (at a given index) moved, the others left
alone: the in-place mutation of d inside the graph's node array. -/
def moveNode (height ev : Rat) : Nat → List GeomNode → List GeomNode
  | _, [] => []
  | 0, nd :: rest => dragmoveNode height ev nd :: rest
  | Nat.succ j, nd :: rest => nd :: moveNode height ev j rest

/-- The chart as the drag handler sees it: the computed graph plus the
rendered SVG link-path data. -/
structure ChartState (α : Type) where
  graph : List GeomNode
  linkPaths : α

/-- dragmove (sankey-diagram.js lines 64-70): mutate the dragged node, call
sankey.update(graph), then redraw the link paths from the updated graph.  The
library routines sankey.update and d3.sankeyLinkHorizontal are external and
appear as parameters. -/
def dragmove {α : Type} (update : List GeomNode → List GeomNode)
    (pathOf : List GeomNode → α) (height ev : Rat) (i : Nat)
    (s : ChartState α) : ChartState α :=
  let g := update (moveNode height ev i s.graph)
  { graph := g, linkPaths := pathOf g }

lemma moveNode_getElem_self (height ev : Rat) :
    ∀ (g : List GeomNode) (i : Nat),
      (moveNode height ev i g)[i]? = (g[i]?).map (dragmoveNode height ev) := by
  intro g
  induction g with
  | nil => intro i; cases i <;> rfl
  | cons nd rest ih =>
    intro i
    cases i with
    | zero => simp [moveNode]
    | succ j => simpa [moveNode] using ih j

/-- C7.  Every drag event leaves the chart with graph = update(moved graph)
and with link paths recomputed from exactly that updated graph, the moved
graph being the old one with the dragged node put through the dragmove
assignments (sankey-diagram.js lines 64-70; src/unnamed/part_000
lines 341-350). -/
theorem drag_redraw {α : Type} (update : List GeomNode → List GeomNode)
    (pathOf : List GeomNode → α) (height ev : Rat) (i : Nat) (s : ChartState α) :
    (dragmove update pathOf height ev i s).graph =
      update (moveNode height ev i s.graph) ∧
    (dragmove update pathOf height ev i s).linkPaths =
      pathOf (update (moveNode height ev i s.graph)) ∧
    (moveNode height ev i s.graph)[i]? = (s.graph[i]?).map (dragmoveNode height ev) :=
  ⟨rfl, rfl, moveNode_getElem_self height ev s.graph i⟩

/- ### The out-bar height expressions -/

/-- JS x || y for numbers: y when x is falsy (0), else x. -/
def jsOr (a b : Rat) : Rat :=
  if a = 0 then b else a

/-- JS division as a finite number: x / 0 is Infinity or NaN in JS, never a
finite height, so a zero divisor yields none. -/
def jsFiniteDiv (a b : Rat) : Option Rat :=
  if b = 0 then none else some (a / b)

/-- Out-bar height of the first variant (sankey-diagram.js lines 83 and 114):
(d.fundingOut / (d.fundingIn || 1)) * (d.y1 - d.y0). -/
def outBarHeight (n : Node) (y0 y1 : Rat) : Option Rat :=
  (jsFiniteDiv n.fundingOut (jsOr n.fundingIn 1)).map (fun q => q * (y1 - y0))

/-- Out-bar height of the themed variant (src/unnamed/part_000 lines
248-257): 0 for a final node, the full height when fundingOut exceeds
fundingIn, else (d.fundingOut / d.fundingIn) * (y1 - y0) with no guard on the
divisor. -/
def outBarHeightThemed (isFinal : Bool) (n : Node) (y0 y1 : Rat) : Option Rat :=
  if isFinal then some 0
  else if n.fundingIn < n.fundingOut then some (y1 - y0)
  else (jsFiniteDiv n.fundingOut n.fundingIn).map (fun q => q * (y1 - y0))

/-- C10.  The out-bar height of the first variant always divides by a nonzero
divisor (fundingIn || 1), so it is a finite number for every node, zero
fundingIn included; the non-final branch of the themed variant divides by
fundingIn itself, so a node with fundingIn = 0 and fundingOut ≤ fundingIn
hits an unguarded division by zero (no finite result). -/
theorem out_bar_division (n : Node) (y0 y1 : Rat) :
    (outBarHeight n y0 y1).isSome ∧
    (n.fundingIn = 0 → n.fundingOut ≤ n.fundingIn →
      outBarHeightThemed false n y0 y1 = none) := by
  constructor
  · by_cases h : n.fundingIn = 0
    · simp [outBarHeight, jsOr, jsFiniteDiv, h]
    · simp [outBarHeight, jsOr, jsFiniteDiv, h]
  · intro h0 hle
    rw [h0] at hle
    have hnotlt : ¬ (0 : Rat) < n.fundingOut := not_lt.mpr hle
    simp [outBarHeightThemed, jsFiniteDiv, h0, hnotlt]

/-- C10 witness: a non-final node with fundingIn = fundingOut = 0; the first
variant yields a finite height, the themed variant none. -/
theorem out_bar_division_witness :
    ((0 : Rat) = 0) ∧ ((0 : Rat) ≤ 0) ∧
    (outBarHeight { name := "a", fundingIn := 0, fundingOut := 0 } 0 1).isSome ∧
    outBarHeightThemed false { name := "a", fundingIn := 0, fundingOut := 0 } 0 1 = none :=
  ⟨rfl, le_refl 0,
   (out_bar_division { name := "a", fundingIn := 0, fundingOut := 0 } 0 1).1,
   (out_bar_division { name := "a", fundingIn := 0, fundingOut := 0 } 0 1).2 rfl (le_refl 0)⟩

/- ### Object identity between the funding pass and the layout call -/

/-- A node object in a store of heap cells: its record contents plus whether
the layout call has augmented it with geometry fields. -/
structure NodeObj where
  node : Node
  hasGeometry : Bool
deriving DecidableEq, Repr

/-- The store right after the funding pass: the aggregated node objects live
at addresses 0 .. n-1 and carry no geometry yet. -/
def heapStore (data : List Record) : List NodeObj :=
  (aggregate data).map (fun n => { node := n, hasGeometry := false })

/-- The layout call: d3.sankey mutates in place the node objects whose
addresses it is handed, augmenting each with geometry fields; objects at
other addresses are untouched. -/
def layoutAugmentFrom (addrs : List Nat) : Nat → List NodeObj → List NodeObj
  | _, [] => []
  | i, o :: rest =>
    (if addrs.contains i then { o with hasGeometry := true } else o) ::
      layoutAugmentFrom addrs (i + 1) rest

/-- sankey({nodes: nodes, links: links}) in sankey-diagram.js lines 59-62
(and lines 200-203): the layout receives the addresses of the aggregated
objects themselves. -/
def renderStoreDirect (data : List Record) : List NodeObj :=
  layoutAugmentFrom (List.range (heapStore data).length) 0 (heapStore data)

/-- sankey({nodes: nodes.map(d => Object.assign(\x7b\x7d, d)), ...}) in
src/unnamed/part_000 lines 134-137: shallow copies of the aggregated objects
are allocated at the fresh addresses n .. 2n-1 and only those copies are
handed to the layout. -/
def renderStoreThemed (data : List Record) : List NodeObj :=
  layoutAugmentFrom
    (List.range' (heapStore data).length (heapStore data).length) 0
    (heapStore data ++ heapStore data)

lemma layoutAugmentFrom_all (addrs : List Nat) :
    ∀ (l : List NodeObj) (i : Nat), (∀ j, j < l.length → (i + j) ∈ addrs) →
      layoutAugmentFrom addrs i l = l.map (fun o => { o with hasGeometry := true }) := by
  intro l
  induction l with
  | nil => intro i _; rfl
  | cons o rest ih =>
    intro i h
    have h0 : i ∈ addrs := by simpa using h 0 (Nat.succ_pos rest.length)
    have hrest : ∀ j, j < rest.length → (i + 1 + j) ∈ addrs := by
      intro j hj
      have := h (j + 1) (by simpa using Nat.succ_lt_succ hj)
      simpa [Nat.add_assoc, Nat.add_comm 1 j] using this
    simp [layoutAugmentFrom, h0, ih (i + 1) hrest]

lemma layoutAugmentFrom_none (addrs : List Nat) :
    ∀ (l : List NodeObj) (i : Nat), (∀ j, j < l.length → (i + j) ∉ addrs) →
      layoutAugmentFrom addrs i l = l := by
  intro l
  induction l with
  | nil => intro i _; rfl
  | cons o rest ih =>
    intro i h
    have h0 : i ∉ addrs := by simpa using h 0 (Nat.succ_pos rest.length)
    have hrest : ∀ j, j < rest.length → (i + 1 + j) ∉ addrs := by
      intro j hj
      have := h (j + 1) (by simpa using Nat.succ_lt_succ hj)
      simpa [Nat.add_assoc, Nat.add_comm 1 j] using this
    simp [layoutAugmentFrom, h0, ih (i + 1) hrest]

lemma layoutAugmentFrom_append (addrs : List Nat) :
    ∀ (l1 l2 : List NodeObj) (i : Nat),
      layoutAugmentFrom addrs i (l1 ++ l2) =
        layoutAugmentFrom addrs i l1 ++ layoutAugmentFrom addrs (i + l1.length) l2 := by
  intro l1
  induction l1 with
  | nil => intro l2 i; simp [layoutAugmentFrom]
  | cons o rest ih =>
    intro l2 i
    have harg : i + 1 + rest.length = i + (rest.length + 1) := by omega
    simp only [List.cons_append, layoutAugmentFrom, List.length_cons, List.append_eq,
      ih l2 (i + 1), harg]

/-- C6 (amended).  In sankey-diagram.js the layout is handed the very node
objects mutated by the funding pass, so after the layout call every one of
those objects carries geometry; in the themed variant the layout is handed
shallow copies, so the copies acquire geometry while the aggregated
originals at addresses 0 .. n-1 do not. -/
theorem layout_aliasing (data : List Record) :
    renderStoreDirect data =
      (aggregate data).map (fun n => { node := n, hasGeometry := true }) ∧
    (renderStoreThemed data).take (heapStore data).length = heapStore data ∧
    (renderStoreThemed data).drop (heapStore data).length =
      (aggregate data).map (fun n => { node := n, hasGeometry := true }) := by
  refine ⟨?_, ?_, ?_⟩
  · rw [renderStoreDirect,
      layoutAugmentFrom_all _ (heapStore data) 0
        (fun j hj => by simpa using hj)]
    simp [heapStore, List.map_map]
  · rw [renderStoreThemed, layoutAugmentFrom_append,
      layoutAugmentFrom_none _ (heapStore data) 0 ?hlow]
    · exact List.take_left _ _
    case hlow =>
      intro j hj hmem
      rw [List.mem_range'] at hmem
      omega
  · rw [renderStoreThemed, layoutAugmentFrom_append,
      layoutAugmentFrom_none _ (heapStore data) 0 ?hlow2,
      layoutAugmentFrom_all _ (heapStore data) (0 + (heapStore data).length) ?hhigh]
    · rw [List.drop_left]
      simp [heapStore, List.map_map]
    case hlow2 =>
      intro j hj hmem
      rw [List.mem_range'] at hmem
      omega
    case hhigh =>
      intro j hj
      rw [List.mem_range']
      exact ⟨j, hj, by omega⟩

/-- C6 counterexample for the claim as stated: in the themed variant, after
the layout call the aggregated node object at address 0 still has no
geometry fields - the layout was not given the aggregated objects. -/
theorem layout_aliasing_counterexample :
    (renderStoreThemed
        [{ source := "a", target := "b", value := 5,
           source_funding := 0, target_funding := 0 }])[0]? =
      some
        { node := { name := "a", fundingIn := 0, fundingOut := 5 },
          hasGeometry := false } := by
  simp [renderStoreThemed, heapStore, aggregate, initNodes, nodeNames, collectStep,
    insertName, aggStep, updateFirst, layoutAugmentFrom, List.range']

end VisualAutonomy
